import Mathlib

/-!
Verification of the spectrum networking substrate (ergolabs/spectrum).

Shallow embedding of the Rust sources under a faithful translation:
machine integers are modelled as `Nat`/`Int` with explicit wrapping where
overflow can occur, fallible operations return `Option`/`Except`, and
stateful handlers are explicit state-passing functions.  Definitions whose
Rust source is absent from the repository snapshot (only the spec, tests or
callers describe them) carry a doc comment starting with
`Modelled from the spec:`.
-/

namespace Spectrum

/-! ### Machine-integer helpers (i32 / i64 semantics) -/

def i32min : Int := -(2 ^ 31)

def i32max : Int := 2 ^ 31 - 1

def i64max : Int := 2 ^ 63 - 1

/-- Two's-complement wrap of a mathematical integer into the i32 range,
the behaviour of Rust's release-mode `+` on overflow (debug mode panics at
exactly the same inputs). -/
def wrap32 (x : Int) : Int := (x + 2 ^ 31) % 2 ^ 32 - 2 ^ 31

/-- Saturating 32-bit signed addition (`i32::saturating_add`), the mutation
the spec ascribes to reputation updates. -/
def satAdd32 (a b : Int) : Int := max i32min (min i32max (a + b))

/-! ### spectrum-network/src/types.rs and peer data -/

/-- Translated from `peer::data::ReputationChange` (spectrum-network/src/peer/data.rs):
a reputation change carries a fixed i32 delta `value` (the named reason is a
static string irrelevant to arithmetic). -/
structure ReputationChange where
  value : Int
deriving DecidableEq

/-- Translated from `types.rs`: `Reputation(i32)`. -/
structure Reputation where
  val : Int
deriving DecidableEq

/-- Translated from `Reputation::initial`. -/
def Reputation.initial : Reputation := ⟨0⟩

/-- Translated from `Reputation::apply` (types.rs line 29-31):
`Reputation(self.0 + i32::from(change))` — a plain i32 addition, wrapping
(release) or panicking (debug) on overflow. -/
def Reputation.apply (r : Reputation) (change : ReputationChange) : Reputation :=
  ⟨wrap32 (r.val + change.value)⟩

/-- Translated from `types.rs`: `ProtocolTag([u8; 3])`, built by
`ProtocolTag::new` as `[b"/"[0], protocol_id, protocol_ver]`. -/
structure ProtocolTag where
  b0 : Nat
  b1 : Nat
  b2 : Nat
deriving DecidableEq

/-- Translated from `ProtocolTag::new`: the three-byte wire form
`0x2F ('/'), id, ver`. -/
def ProtocolTag.new (protocol_id protocol_ver : Nat) : ProtocolTag :=
  ⟨0x2F, protocol_id, protocol_ver⟩

/-- Translated from `ProtocolTag::protocol_id`: reads `self.0[1]`. -/
def ProtocolTag.protocol_id (t : ProtocolTag) : Nat := t.b1

/-- Translated from `ProtocolTag::protocol_ver`: reads `self.0[2]`. -/
def ProtocolTag.protocol_ver (t : ProtocolTag) : Nat := t.b2

/-- Translated from `impl From<ProtocolTag> for ProtocolVer` (types.rs
lines 126-130): `ProtocolVer::from(p.0[1])` — note the source reads byte
index 1, the protocol-id byte. -/
def protocolVerFromTag (t : ProtocolTag) : Nat := t.b1

/-- Translated from `impl Ord for ProtocolVer` (types.rs lines 72-76):
`self.0.cmp(&other.0).reverse()` — the numeric byte comparison, reversed. -/
def protocolVerCmp (a b : Nat) : Ordering := (compare a b).swap

/-- Model of the first key of a `BTreeMap<ProtocolVer, _>`: the least key
under `Ord for ProtocolVer`, computed as the fold of the comparison over the
key set (a `BTreeMap` iterates keys in ascending `Ord` order, so its first
key is the `Ord`-minimum). -/
def btreeFirstKey : List Nat → Option Nat
  | [] => none
  | k :: ks => some (ks.foldl (fun m x => if protocolVerCmp x m = Ordering.lt then x else m) k)

/-! ### spectrum-network/src/protocol_handler/diffusion/service.rs -/

/-- Modelled from the spec: `BlockId` (spectrum-ledger's block module is not
in the snapshot).  An opaque block identifier; only equality is used by the
diffusion service. -/
structure BlockId where
  val : Nat
deriving DecidableEq

/-- Modelled from the spec: `BlockId::ORIGIN`, the identifier of the
pre-genesis origin block. -/
def BlockId.ORIGIN : BlockId := ⟨0⟩

/-- Modelled from the spec: a block header as used by the diffusion service —
an id plus a slot number (`SlotNo` is a u64 newtype, modelled as `Nat`). -/
structure BlockHeader where
  id : BlockId
  slot : Nat
deriving DecidableEq

/-- Translated from `diffusion::message::SyncStatus`: remote height plus the
remote's last block ids, newest first. -/
structure SyncStatus where
  height : Nat
  last_blocks : List BlockId
deriving DecidableEq

/-- Modelled from the spec: the `LedgerHistoryReadAsync` interface
(spectrum-view's history module is not in the snapshot).  `tip` is
`get_tip` (the header with the maximal slot), `tail n` is `get_tail n`
(the last `n` headers, oldest first, nonempty), `member` is the membership
test by block id. -/
structure LedgerHistory where
  tip : BlockHeader
  tail : Nat → List BlockHeader
  member : BlockId → Bool

/-- Translated from `RemoteChainCmp` (service.rs lines 14-27). -/
inductive RemoteChainCmp where
  | Equal : RemoteChainCmp
  | Longer : Option (List BlockId) → RemoteChainCmp
  | Shorter : BlockId → RemoteChainCmp
  | Fork : Option BlockId → RemoteChainCmp
  | Nonsense : RemoteChainCmp
deriving DecidableEq

/-- Translated from service.rs line 178. -/
def SYNC_HEADERS : Nat := 256

/-- Translated from `RemoteSync::local_status` (service.rs lines 56-65):
height is the slot of the last (newest) header of the tail; `last_blocks`
is the tail reversed (newer blocks first), projected to ids.  In Rust the
tail is a `NonEmpty`, so `.last()` is total; we model it with `getLastD`. -/
def local_status (h : LedgerHistory) : SyncStatus :=
  let tl := h.tail SYNC_HEADERS
  { height := (tl.getLastD ⟨BlockId.ORIGIN, 0⟩).slot
    last_blocks := tl.reverse.map BlockHeader.id }

/-- Translated from `RemoteSync::common_point` (service.rs lines 168-175):
the first element of the remote tail that is a member of the local chain. -/
def common_point (h : LedgerHistory) (remote_tail : List BlockId) : Option BlockId :=
  remote_tail.find? h.member

/-- Translated from `RemoteSync::compare_remote` (service.rs lines 109-165).
`delta` uses `u64::saturating_sub`, which is `Nat` subtraction. -/
def compare_remote (h : LedgerHistory) (peer_status : SyncStatus) : RemoteChainCmp :=
  let local_tip := h.tip
  let peer_height := peer_status.height
  let peer_tail := peer_status.last_blocks
  if peer_tail.isEmpty then
    RemoteChainCmp.Shorter BlockId.ORIGIN
  else
    let delta := peer_height - local_tip.slot
    let num_shared_blocks := peer_tail.length
    if delta > num_shared_blocks then
      RemoteChainCmp.Longer none
    else
      let peer_tip := peer_tail.headD BlockId.ORIGIN
      let optimistic_common_point := peer_tail.find? (fun blk => blk = local_tip.id)
      match optimistic_common_point with
      | some common_sl =>
        if peer_height ≥ local_tip.slot then
          if common_sl = peer_tip then
            RemoteChainCmp.Equal
          else
            RemoteChainCmp.Longer
              (some ((peer_tail.takeWhile (fun blk => blk ≠ common_sl)).reverse))
        else
          RemoteChainCmp.Nonsense
      | none =>
        match common_point h peer_tail with
        | some cp =>
          if cp = peer_tip then RemoteChainCmp.Shorter cp
          else RemoteChainCmp.Fork (some cp)
        | none => RemoteChainCmp.Fork none

/-! ### spectrum-network/src/peer_manager.rs -/

/-- Association-list lookup modelling `HashMap::get` (first entry wins;
real hash maps have unique keys, which theorems assume via `Nodup`). -/
def hmLookup {α : Type} (m : List (Nat × α)) (k : Nat) : Option α :=
  (m.find? (fun p => p.1 = k)).map Prod.snd

/-- Translated from `peer::data::ConnectionDirection`. -/
inductive ConnDir where
  | Incoming : ConnDir
  | Outgoing : Bool → ConnDir
deriving DecidableEq

/-- Translated from `peer::data::ConnectionState`. -/
inductive ConnectionState where
  | Connected : ConnDir → ConnectionState
  | NotConnected : ConnectionState
deriving DecidableEq

/-- Translated from `peer::data::PeerInfo`, restricted to the fields the
peer manager consults (reservation flag, reputation, connection state), plus
the advertised-protocol set of the spec's peer record (`supports` returns
`Option<bool>` in the source: `none` when the peer's protocols are unknown). -/
structure PeerInfo where
  is_reserved : Bool
  reputation : Int
  state : ConnectionState
  protocols : Option (List Nat)
deriving DecidableEq

/-- Translated from `PeerInfo::new`: fresh peers start `NotConnected` with
`Reputation::initial()` (zero). -/
def PeerInfo.new (is_reserved : Bool) : PeerInfo :=
  { is_reserved := is_reserved, reputation := 0, state := ConnectionState.NotConnected,
    protocols := none }

/-- Translated from `PeerInfo::supports` usage
(`pi.supports(&protocol_id).unwrap_or(false)`): `some` of the membership
test when the protocol list is known. -/
def PeerInfo.supports (pi : PeerInfo) (prot : Nat) : Option Bool :=
  pi.protocols.map (fun ps => ps.contains prot)

/-- Modelled from the spec: the peer book of `peers_state` (the module is
absent from the snapshot; its tests and callers fix the interface).  Peers
are keyed by id; `max_inbound` is the inbound connection budget. -/
structure PeersState where
  peers : List (Nat × PeerInfo)
  max_inbound : Nat

/-- Modelled from the spec: `PeersState::peer`, the lookup of a peer entry. -/
def PeersState.peerInfo (st : PeersState) (pid : Nat) : Option PeerInfo :=
  hmLookup st.peers pid

/-- Number of peers whose state is `Connected(Incoming)`. -/
def PeersState.numInbound (st : PeersState) : Nat :=
  (st.peers.filter
    (fun p => p.2.state = ConnectionState.Connected ConnDir.Incoming)).length

/-- Replace the info of `pid` in the peer list. -/
def updatePeer (m : List (Nat × PeerInfo)) (pid : Nat) (pi : PeerInfo) :
    List (Nat × PeerInfo) :=
  m.map (fun p => if p.1 = pid then (p.1, pi) else p)

/-- Modelled from the spec: `NotConnectedPeer::try_accept_connection` —
the `NotConnected → Connected(Incoming)` transition succeeds iff the
inbound budget has a free slot ("transitions NotConnected→Connected require
a free slot in the appropriate direction budget"). -/
def PeersState.tryAcceptConnection (st : PeersState) (pid : Nat) :
    Option PeersState :=
  match st.peerInfo pid with
  | none => none
  | some pi =>
    if st.numInbound < st.max_inbound then
      some { st with
             peers := updatePeer st.peers pid
               { pi with state := ConnectionState.Connected ConnDir.Incoming } }
    else none

/-- Modelled from the spec: `PeersState::try_add_peer` — registers an
unknown peer with `PeerInfo::new` and returns its handle; `none` if the
peer is already known. -/
def PeersState.tryAddPeer (st : PeersState) (pid : Nat) (reserved : Bool) :
    Option PeersState :=
  match st.peerInfo pid with
  | some _ => none
  | none => some { st with peers := (pid, PeerInfo.new reserved) :: st.peers }

/-- Translated from `PeerManagerOut` (peer_manager.rs lines 25-36),
connection ids as `Nat`. -/
inductive PeerManagerOut where
  | Connect : Nat → PeerManagerOut
  | Drop : Nat → PeerManagerOut
  | Accept : Nat → Nat → PeerManagerOut
  | Reject : Nat → Nat → PeerManagerOut
  | StartProtocol : Nat → Nat → PeerManagerOut
deriving DecidableEq

/-- Translated from `PeerManager::on_incoming_connection` (peer_manager.rs
lines 284-316).  `min_reputation` is `self.conf.min_reputation`.  Known
`NotConnected` peers are accepted iff their reputation is at least
`min_reputation` and `try_accept_connection` succeeds (short-circuit `&&`);
known `Connected` peers are rejected; unknown peers are registered with
`try_add_peer` and then accepted iff `try_accept_connection` succeeds —
with no reputation test on this path. -/
def on_incoming_connection (min_reputation : Int) (st : PeersState)
    (pid conn_id : Nat) : PeersState × PeerManagerOut :=
  match st.peerInfo pid with
  | some pi =>
    match pi.state with
    | ConnectionState.NotConnected =>
      if min_reputation ≤ pi.reputation then
        match st.tryAcceptConnection pid with
        | some st2 => (st2, PeerManagerOut.Accept pid conn_id)
        | none => (st, PeerManagerOut.Reject pid conn_id)
      else (st, PeerManagerOut.Reject pid conn_id)
    | ConnectionState.Connected _ => (st, PeerManagerOut.Reject pid conn_id)
  | none =>
    match st.tryAddPeer pid false with
    | some st2 =>
      match st2.tryAcceptConnection pid with
      | some st3 => (st3, PeerManagerOut.Accept pid conn_id)
      | none => (st2, PeerManagerOut.Reject pid conn_id)
    | none => (st, PeerManagerOut.Reject pid conn_id)

/-- Translated from `ProtocolAllocationPolicy` (peer_manager::data, whose
variants are fixed by the spec and by their use at peer_manager.rs lines
391-400). -/
inductive ProtocolAllocationPolicy where
  | Bounded : Nat → ProtocolAllocationPolicy
  | Max : ProtocolAllocationPolicy
  | Zero : ProtocolAllocationPolicy
deriving DecidableEq

/-- State consulted by one protocol-allocation pass: the peer book plus
`get_enabled_peers`, the set of peers that already enabled a protocol. -/
structure PMState where
  peers : List (Nat × PeerInfo)
  enabledPeers : Nat → Option (List Nat)

/-- Modelled from the spec: `PeersState::num_connected_peers`. -/
def PMState.numConnectedPeers (st : PMState) : Nat :=
  (st.peers.filter (fun p =>
    match p.2.state with
    | ConnectionState.Connected _ => true
    | ConnectionState.NotConnected => false)).length

/-- Keep the entry with the higher reputation (the later one only on a
strict improvement, so the fold is deterministic). -/
def pickBetter (a b : Nat × PeerInfo) : Nat × PeerInfo :=
  if a.2.reputation < b.2.reputation then b else a

/-- Modelled from the spec: `PeersState::peek_best` — among the peers
satisfying the filter, one with maximal reputation ("best means maximum
reputation"). -/
def peekBest (peers : List (Nat × PeerInfo)) (pred : Nat → PeerInfo → Bool) :
    Option Nat :=
  match peers.filter (fun p => pred p.1 p.2) with
  | [] => none
  | c :: cs => some (cs.foldl pickBetter c).1

/-- Translated from the protocol-allocation pass of `PeerManager::poll_next`
(peer_manager.rs lines 388-417), for one configured `(protocol, policy)`
pair: compute the policy condition (`/` is integer division, as in Rust),
pick the best peer that has not enabled the protocol and supports it, and
emit `StartProtocol` iff that candidate is currently `Connected`. -/
def allocStep (st : PMState) (prot : Nat) (policy : ProtocolAllocationPolicy) :
    Option PeerManagerOut :=
  match st.enabledPeers prot with
  | none => none
  | some enabled =>
    let cond : Bool :=
      match policy with
      | ProtocolAllocationPolicy.Bounded max_conn_percent =>
        enabled.length / st.numConnectedPeers < max_conn_percent / 100
      | ProtocolAllocationPolicy.Max => enabled.length < st.numConnectedPeers
      | ProtocolAllocationPolicy.Zero => false
    if cond then
      match peekBest st.peers
        (fun pid pi => !(enabled.contains pid) && (pi.supports prot).getD false) with
      | some candidate =>
        match hmLookup st.peers candidate with
        | some pi =>
          match pi.state with
          | ConnectionState.Connected _ =>
            some (PeerManagerOut.StartProtocol prot candidate)
          | ConnectionState.NotConnected => none
        | none => none
      | none => none
    else none

/-! ### spectrum-network/src/protocol_upgrade.rs -/

/-- Translated from `APPROVE_SIZE` usage: the Approve marker is a fixed
three-byte literal (the spec fixes the size; `message.rs` is absent from
the snapshot). -/
def APPROVE_SIZE : Nat := 3

/-- Modelled from the spec: `Approve::bytes()`, the fixed three-byte
Approve marker (`protocol_upgrade::message` is absent from the snapshot;
only its size is specified, so a representative literal is used — every
theorem below is independent of the concrete value). -/
def approveBytes : List Nat := [65, 80, 86]

/-- Translated from `ProtocolUpgradeErr` and the nested
`ProtocolHandshakeErr` (protocol_upgrade.rs lines 22-38), flattened:
io-level failures are collapsed into `IoErr`. -/
inductive ProtocolUpgradeErr where
  | UnsupportedProtocolVer : Nat → ProtocolUpgradeErr
  | InvalidApprove : ProtocolUpgradeErr
  | IoErr : ProtocolUpgradeErr
deriving DecidableEq

/-- Translated from `OutboundProtocolSpec` (protocol_upgrade.rs lines
143-148): message-size bound plus the optional initial handshake. -/
structure OutboundProtocolSpec where
  max_message_size : Nat
  handshake : Option (List Nat)
deriving DecidableEq

/-- Translated from `ProtocolUpgradeOut` (protocol_upgrade.rs lines
162-168); the `BTreeMap` of supported versions is carried as its entry
list. -/
structure ProtocolUpgradeOut where
  protocol_id : Nat
  supported_versions : List (Nat × OutboundProtocolSpec)

/-- Fuel-driven worker for `uvarint` (structural recursion so the kernel
can evaluate it; the fuel `n + 1` always suffices since the argument is
divided by 128 each step, so the `[]` base is never reached). -/
def uvarintGo : Nat → Nat → List Nat
  | 0, _ => []
  | fuel + 1, n =>
    if n < 128 then [n] else (n % 128 + 128) :: uvarintGo fuel (n / 128)

/-- Unsigned-varint encoding of a length (the `unsigned_varint` framing
used by `write_length_prefixed`). -/
def uvarint (n : Nat) : List Nat := uvarintGo (n + 1) n

/-- Translated from `write_handshake` (protocol_upgrade.rs lines 275-281):
`write_length_prefixed` emits the varint length followed by the payload. -/
def write_handshake (msg : List Nat) : List Nat :=
  uvarint msg.length ++ msg

/-- Translated from `read_approve` (protocol_upgrade.rs lines 263-273):
read exactly `APPROVE_SIZE` bytes; succeed iff they equal the marker,
fail with `InvalidApprove` on a mismatch (`IoErr` if the stream is too
short for `read_exact`).  Returns the unread remainder of the stream. -/
def read_approve (input : List Nat) : Except ProtocolUpgradeErr (List Nat) :=
  if input.length < APPROVE_SIZE then Except.error ProtocolUpgradeErr.IoErr
  else if input.take APPROVE_SIZE = approveBytes then Except.ok (input.drop APPROVE_SIZE)
  else Except.error ProtocolUpgradeErr.InvalidApprove

/-- The success value of an outbound upgrade: the upgraded substream for the
negotiated tag (the unread remainder of the stream models the substream). -/
structure OutboundProtocolUpgraded where
  negotiated_tag : ProtocolTag
  remaining : List Nat
deriving DecidableEq

/-- Translated from `ProtocolUpgradeOut::upgrade_outbound`
(protocol_upgrade.rs lines 208-239).  The negotiated version is
`negotiated_tag.protocol_ver()`; an unsupported version fails with
`UnsupportedProtocolVer`; otherwise the configured handshake (if any) is
written, and — exactly when a handshake is configured — the Approve marker
is read.  The first component is the byte stream written to the socket. -/
def upgrade_outbound (self : ProtocolUpgradeOut) (negotiated_tag : ProtocolTag)
    (input : List Nat) :
    List Nat × Except ProtocolUpgradeErr OutboundProtocolUpgraded :=
  let protocol_ver := negotiated_tag.protocol_ver
  match hmLookup self.supported_versions protocol_ver with
  | none => ([], Except.error (ProtocolUpgradeErr.UnsupportedProtocolVer protocol_ver))
  | some pspec =>
    match pspec.handshake with
    | some hs =>
      let written := write_handshake hs
      match read_approve input with
      | Except.ok rest => (written, Except.ok ⟨negotiated_tag, rest⟩)
      | Except.error e => (written, Except.error e)
    | none => ([], Except.ok ⟨negotiated_tag, input⟩)

/-! ### spectrum-network/src/network_controller.rs -/

/-- Translated from the `ConnHandlerOut::ClosedAllProtocols` arm of
`NetworkController::on_connection_handler_event` (network_controller.rs
lines 522-524): `assert!(self.enabled_peers.remove(&peer_id).is_some())`.
The result is `none` when the assertion fails (the controller panics),
`some` of the map without the peer otherwise. -/
def onClosedAllProtocols {α : Type} (enabled_peers : List (Nat × α)) (peer_id : Nat) :
    Option (List (Nat × α)) :=
  if (hmLookup enabled_peers peer_id).isSome then
    some (enabled_peers.filter (fun p => !(p.1 = peer_id : Bool)))
  else none

/-! ### spectrum-ergo-connector/src/script.rs -/

/-- Modelled from the spec: `ERGO_CHAIN_ID` (spectrum-ledger's constant is
absent from the snapshot).  A fixed chain identifier; every theorem below
is independent of the concrete value. -/
def ERGO_CHAIN_ID : Nat := 0

/-- Modelled from the spec: a token/asset identifier of spectrum-ledger —
a digest wrapper whose raw bytes (`id.0.as_ref()`) feed
`Digest32::try_from`. -/
structure AssetId where
  digest : List Nat
deriving DecidableEq

/-- Modelled from the spec: the destination of a `TermCell` — target chain
id plus the receiving address bytes. -/
structure TermCellDst where
  target : Nat
  address : List Nat
deriving DecidableEq

/-- Modelled from the spec: the value of a `TermCell` — native amount (u64)
plus assets grouped by policy, each a list of `(asset id, u64 amount)`
pairs (the source iterates `for (_, assets) in value.value.assets
{ for (id, a) in assets }`). -/
structure SValue where
  native : Nat
  assets : List (Nat × List (AssetId × Nat))
deriving DecidableEq

/-- Modelled from the spec: a terminal cell of spectrum-ledger as consumed
by `TryFrom<TermCell> for ErgoTermCell`. -/
structure TermCell where
  value : SValue
  dst : TermCellDst
deriving DecidableEq

/-- Translated from `ErgoTermCellError` (script.rs lines 93-100). -/
inductive ErgoTermCellError where
  | BoxValue : ErgoTermCellError
  | SigmaParsing : ErgoTermCellError
  | DigestN : ErgoTermCellError
  | TokenAmount : ErgoTermCellError
  | WrongChainId : ErgoTermCellError
deriving DecidableEq

/-- External `ergo-lib` conversion `BoxValue::try_from(u64)`: fails out of
the legal box-value range (never with `WrongChainId`). -/
def boxValueTryFrom (n : Nat) : Except ErgoTermCellError Nat :=
  if 1 ≤ n ∧ (n : Int) ≤ i64max then Except.ok n
  else Except.error ErgoTermCellError.BoxValue

/-- External `ergo-lib` conversion `Address::p2pk_from_pk_bytes`.  The real
parser requires a 33-byte compressed secp256k1 point (prefix byte 2 or 3
and an x-coordinate that lies on the curve); the model checks the length
and the prefix byte but does not reproduce the curve equation, so it
over-approximates the success set.  Every concrete address evaluated in
this development is `sampleAddress`, the compressed generator point of
secp256k1, on which the model and the real parser agree (both succeed);
the universally quantified theorems use only that this conversion fails
with `SigmaParsing`, never `WrongChainId`, and returns its input bytes on
success, which hold of the real parser as well. -/
def p2pkFromPkBytes (bs : List Nat) : Except ErgoTermCellError (List Nat) :=
  if bs.length = 33 ∧ (bs.headD 0 = 2 ∨ bs.headD 0 = 3) then Except.ok bs
  else Except.error ErgoTermCellError.SigmaParsing

/-- External `ergo-lib` conversion `Digest32::try_from(&[u8])`: succeeds
iff the slice has exactly 32 bytes. -/
def digest32TryFrom (bs : List Nat) : Except ErgoTermCellError (List Nat) :=
  if bs.length = 32 then Except.ok bs
  else Except.error ErgoTermCellError.DigestN

/-- External `ergo-lib` conversion `TokenAmount::try_from(u64)`: fails out
of the legal token-amount range. -/
def tokenAmountTryFrom (n : Nat) : Except ErgoTermCellError Nat :=
  if 1 ≤ n ∧ (n : Int) ≤ i64max then Except.ok n
  else Except.error ErgoTermCellError.TokenAmount

/-- Lexicographic comparison of byte strings: the `Ord` of `Digest32`
(`[u8; 32]` compares lexicographically; both operands here always have 32
bytes). -/
def bytesCmp : List Nat → List Nat → Ordering
  | [], [] => Ordering.eq
  | [], _ :: _ => Ordering.lt
  | _ :: _, [] => Ordering.gt
  | a :: as_, b :: bs =>
    match compare a b with
    | Ordering.eq => bytesCmp as_ bs
    | o => o

/-- The non-strict order induced by `bytesCmp`, the relation under which
`sort_by(|a, b| a.0.cmp(&b.0))` sorts. -/
def digestLe (a b : List Nat × Nat) : Prop := bytesCmp a.1 b.1 ≠ Ordering.gt

instance : DecidableRel digestLe := fun a b => by
  unfold digestLe; infer_instance

/-- The flattening order of the nested asset iteration in
`TryFrom<TermCell> for ErgoTermCell` (script.rs lines 110-117). -/
def flattenAssets (c : TermCell) : List (AssetId × Nat) :=
  c.value.assets.flatMap Prod.snd

/-- The per-asset body of the collection loop: digest conversion then
amount conversion, in source order, first error wins. -/
def collectDetails : List (AssetId × Nat) →
    Except ErgoTermCellError (List (List Nat × Nat))
  | [] => Except.ok []
  | (id, a) :: rest =>
    match digest32TryFrom id.digest with
    | Except.error e => Except.error e
    | Except.ok digest =>
      match tokenAmountTryFrom a with
      | Except.error e => Except.error e
      | Except.ok amount =>
        match collectDetails rest with
        | Except.error e => Except.error e
        | Except.ok tl => Except.ok ((digest, amount) :: tl)

/-- Translated from `ErgoTermCell` (script.rs lines 33-37): box value,
address (kept as its pubkey bytes) and the token list as
`(digest, amount)` pairs. -/
structure ErgoTermCell where
  ergs : Nat
  address : List Nat
  tokens : List (List Nat × Nat)
deriving DecidableEq

/-- Big-endian byte string of width `w` for a nonnegative number
(`to_be_bytes` of the u64/i64 values appearing in `to_bytes`). -/
def beBytes : Nat → Nat → List Nat
  | 0, _ => []
  | w + 1, n => beBytes w (n / 256) ++ [n % 256]

/-- External `ergo-lib` serialization of a P2PK address script
(`address.script().sigma_serialize_bytes()`): a fixed injective function of
the address, modelled as a tagged copy of its bytes. -/
def scriptBytesOf (address : List Nat) : List Nat := 0 :: address

/-- Translated from `ErgoTermCell::to_bytes` (script.rs lines 40-51):
the i64 box value big-endian, then the serialized script, then for each
token its 32-byte digest followed by the u64 amount big-endian. -/
def ErgoTermCell.to_bytes (c : ErgoTermCell) : List Nat :=
  beBytes 8 c.ergs ++ scriptBytesOf c.address ++
    c.tokens.flatMap (fun t => t.1 ++ beBytes 8 t.2)

/-- Translated from `TryFrom<TermCell> for ErgoTermCell` (script.rs lines
102-138): fail with `WrongChainId` unless the destination chain is
`ERGO_CHAIN_ID`; convert value, address and assets; sort the token details
by digest (`sort_by(|a, b| a.0.cmp(&b.0))`, a stable sort, modelled by
insertion sort). -/
def ergoTermCellTryFrom (value : TermCell) :
    Except ErgoTermCellError ErgoTermCell :=
  if value.dst.target = ERGO_CHAIN_ID then
    match boxValueTryFrom value.value.native with
    | Except.error e => Except.error e
    | Except.ok ergs =>
      match p2pkFromPkBytes value.dst.address with
      | Except.error e => Except.error e
      | Except.ok address =>
        match collectDetails (flattenAssets value) with
        | Except.error e => Except.error e
        | Except.ok token_details =>
          Except.ok { ergs := ergs, address := address,
                      tokens := List.insertionSort digestLe token_details }
  else Except.error ErgoTermCellError.WrongChainId

/-! ### Concrete sample inputs used by witnesses and counterexamples -/

/-- A small concrete ledger history: two headers, tail ending at the tip. -/
def sampleHistory : LedgerHistory :=
  { tip := ⟨⟨3⟩, 10⟩
    tail := fun _ => [⟨⟨2⟩, 9⟩, ⟨⟨3⟩, 10⟩]
    member := fun _ => false }

/-- A concrete peer-manager state for the allocation-pass witness: two
connected peers advertising protocol 9, none having enabled it. -/
def samplePMState : PMState :=
  { peers :=
      [ (1, { is_reserved := false, reputation := 5,
              state := ConnectionState.Connected (ConnDir.Outgoing true),
              protocols := some [9] }),
        (2, { is_reserved := false, reputation := 3,
              state := ConnectionState.Connected ConnDir.Incoming,
              protocols := some [9] }) ]
    enabledPeers := fun p => if p = 9 then some [] else none }

/-- A concrete outbound upgrade config: version 1 supported, with a
one-byte handshake configured. -/
def sampleUpgradeOut : ProtocolUpgradeOut :=
  { protocol_id := 0
    supported_versions := [(1, { max_message_size := 100, handshake := some [7] })] }

/-- A 32-byte sample digest. -/
def sampleDigest : List Nat := List.replicate 32 0

/-- A second, distinct 32-byte sample digest. -/
def sampleDigest2 : List Nat := 1 :: List.replicate 31 0

/-- A 33-byte sample address: the compressed encoding of the secp256k1
generator point (`0x02` followed by the big-endian x-coordinate
`79BE667E F9DCBBAC 55A06295 CE870B07 029BFCDB 2DCE28D9 59F2815B 16F81798`),
a valid public key that the real `Address::p2pk_from_pk_bytes` accepts. -/
def sampleAddress : List Nat :=
  [0x02,
   0x79, 0xBE, 0x66, 0x7E, 0xF9, 0xDC, 0xBB, 0xAC,
   0x55, 0xA0, 0x62, 0x95, 0xCE, 0x87, 0x0B, 0x07,
   0x02, 0x9B, 0xFC, 0xDB, 0x2D, 0xCE, 0x28, 0xD9,
   0x59, 0xF2, 0x81, 0x5B, 0x16, 0xF8, 0x17, 0x98]

/-- Terminal cell with two assets sharing one token digest, in one order. -/
def sampleCellA : TermCell :=
  { value := { native := 1, assets := [(0, [(⟨sampleDigest⟩, 1), (⟨sampleDigest⟩, 2)])] }
    dst := { target := ERGO_CHAIN_ID, address := sampleAddress } }

/-- The same terminal cell as `sampleCellA` with the two assets swapped. -/
def sampleCellB : TermCell :=
  { value := { native := 1, assets := [(0, [(⟨sampleDigest⟩, 2), (⟨sampleDigest⟩, 1)])] }
    dst := { target := ERGO_CHAIN_ID, address := sampleAddress } }

/-- Terminal cell with two assets of distinct token digests. -/
def sampleCellC : TermCell :=
  { value := { native := 1, assets := [(0, [(⟨sampleDigest2⟩, 1), (⟨sampleDigest⟩, 2)])] }
    dst := { target := ERGO_CHAIN_ID, address := sampleAddress } }

/-- The same terminal cell as `sampleCellC` with the two assets swapped. -/
def sampleCellD : TermCell :=
  { value := { native := 1, assets := [(0, [(⟨sampleDigest⟩, 2), (⟨sampleDigest2⟩, 1)])] }
    dst := { target := ERGO_CHAIN_ID, address := sampleAddress } }

/-! ## Helper lemmas -/

theorem protocolVerCmp_lt_iff (a b : Nat) :
    protocolVerCmp a b = Ordering.lt ↔ b < a := by
  unfold protocolVerCmp
  cases h : compare a b with
  | lt => simp [Ordering.swap]
          exact Nat.le_of_lt (Nat.compare_eq_lt.mp h)
  | eq => simp [Ordering.swap]
          exact Nat.le_of_eq (Nat.compare_eq_eq.mp h)
  | gt => simp [Ordering.swap]
          exact Nat.compare_eq_gt.mp h

theorem btreeFold_spec (ks : List Nat) :
    ∀ k : Nat,
      (ks.foldl (fun m x => if protocolVerCmp x m = Ordering.lt then x else m) k)
        ∈ (k :: ks) ∧
      ∀ x ∈ k :: ks,
        x ≤ ks.foldl (fun m x => if protocolVerCmp x m = Ordering.lt then x else m) k := by
  induction ks with
  | nil => intro k; simp
  | cons b bs ih =>
    intro k
    simp only [List.foldl_cons]
    obtain ⟨hmem, hmax⟩ := ih (if protocolVerCmp b k = Ordering.lt then b else k)
    have hk2 : (if protocolVerCmp b k = Ordering.lt then b else k) = b ∨
        (if protocolVerCmp b k = Ordering.lt then b else k) = k := by
      split <;> simp
    have hk_le : k ≤ (if protocolVerCmp b k = Ordering.lt then b else k) := by
      split
      · exact Nat.le_of_lt ((protocolVerCmp_lt_iff b k).mp (by assumption))
      · exact Nat.le_refl k
    have hb_le : b ≤ (if protocolVerCmp b k = Ordering.lt then b else k) := by
      split
      · exact Nat.le_refl b
      · exact Nat.le_of_not_lt (fun hlt =>
          (by assumption : ¬protocolVerCmp b k = Ordering.lt)
            ((protocolVerCmp_lt_iff b k).mpr hlt))
    have hk2_le := hmax _ (List.mem_cons_self _ _)
    constructor
    · rcases List.mem_cons.mp hmem with hh | ht
      · rcases hk2 with h | h <;> rw [hh, h] <;> simp
      · simp [List.mem_cons, ht]
    · intro x hx
      rcases List.mem_cons.mp hx with rfl | hx2
      · exact Nat.le_trans hk_le hk2_le
      · rcases List.mem_cons.mp hx2 with rfl | hx3
        · exact Nat.le_trans hb_le hk2_le
        · exact hmax x (List.mem_cons_of_mem _ hx3)

/-! ## Claim theorems -/

/-- Claim C1: the spec claims `Reputation::apply` performs a saturating
32-bit signed addition.  The source computes `self.0 + i32::from(change)`
unchecked: at reputation `i32::MIN` a penalty of 1 overflows — a debug
build panics, release wraps to `i32::MAX` — instead of saturating at
`i32::MIN`, so `apply` disagrees with the saturating addition. -/
theorem c1_apply_is_not_saturating :
    Reputation.apply ⟨i32min⟩ ⟨-1⟩ = ⟨i32max⟩ ∧
    satAdd32 i32min (-1) = i32min ∧
    Reputation.apply ⟨i32min⟩ ⟨-1⟩ ≠ ⟨satAdd32 i32min (-1)⟩ ∧
    i32min + (-1) < i32min := by decide

/-- Claim C7: `ProtocolTag::new(id, ver)` does have the wire form
`[0x2F, id, ver]` and `protocol_id`/`protocol_ver` project it back, but
`From<ProtocolTag> for ProtocolVer` reads byte index 1 — the protocol-id
byte — so at `new(5, 7)` it returns 5, not the version 7. -/
theorem c7_ver_from_tag_reads_id_byte :
    ProtocolTag.new 5 7 = ⟨0x2F, 5, 7⟩ ∧
    (ProtocolTag.new 5 7).protocol_id = 5 ∧
    (ProtocolTag.new 5 7).protocol_ver = 7 ∧
    protocolVerFromTag (ProtocolTag.new 5 7) = 5 ∧
    protocolVerFromTag (ProtocolTag.new 5 7) ≠ (ProtocolTag.new 5 7).protocol_ver := by
  decide

/-- Claim C8: `ProtocolVer`'s ordering is the exact reverse of the numeric
byte ordering (`a < b` iff `b.byte < a.byte`), and the first key of a
supported-versions `BTreeMap` — the least key under this ordering — is the
numerically greatest version. -/
theorem c8_protocol_ver_reverse_ordering :
    (∀ a b : Nat, protocolVerCmp a b = Ordering.lt ↔ b < a) ∧
    (∀ l : List Nat, l ≠ [] →
      ∃ m, btreeFirstKey l = some m ∧ m ∈ l ∧ ∀ x ∈ l, x ≤ m) := by
  refine ⟨protocolVerCmp_lt_iff, ?_⟩
  intro l hl
  match l with
  | [] => exact absurd rfl hl
  | k :: ks =>
    obtain ⟨hmem, hmax⟩ := btreeFold_spec ks k
    exact ⟨_, rfl, hmem, hmax⟩

/-- Witness for C8 at concrete versions: 5 is below 3 in the reversed
ordering, and the first `BTreeMap` key of `{3, 7, 5}` is the numeric
maximum 7. -/
theorem c8_witness :
    protocolVerCmp 5 3 = Ordering.lt ∧
    (∃ m, btreeFirstKey [3, 7, 5] = some m ∧ m ∈ [3, 7, 5] ∧
      ∀ x ∈ [3, 7, 5], x ≤ m) :=
  ⟨(c8_protocol_ver_reverse_ordering.1 5 3).mpr (by decide),
   c8_protocol_ver_reverse_ordering.2 [3, 7, 5] (by decide)⟩

/-- Claim C9: on `ClosedAllProtocols` the controller asserts the peer is
present: removal of an absent peer makes the assertion fail (the model
returns `none`, the controller panics) rather than being ignored; for a
present peer the entry is removed. -/
theorem c9_closed_all_protocols_assertion :
    ∀ (α : Type) (enabled_peers : List (Nat × α)) (peer_id : Nat),
      (onClosedAllProtocols enabled_peers peer_id = none ↔
        hmLookup enabled_peers peer_id = none) ∧
      (∀ m2, onClosedAllProtocols enabled_peers peer_id = some m2 →
        hmLookup m2 peer_id = none) := by
  intro α m pid
  constructor
  · unfold onClosedAllProtocols
    rcases h : hmLookup m pid with _ | v <;> simp [h]
  · intro m2 hm2
    unfold onClosedAllProtocols at hm2
    rcases h : hmLookup m pid with _ | v
    · simp [h] at hm2
    · simp [h] at hm2
      rw [← hm2]
      simp [hmLookup, List.find?_eq_none, List.mem_filter]

/-- Witness for C9: the assertion-failure equivalence at a concrete map,
and removal at a present peer. -/
theorem c9_witness :
    (onClosedAllProtocols [(3, 0)] 5 = none ↔
      hmLookup ([(3, 0)] : List (Nat × Nat)) 5 = none) ∧
    hmLookup ([] : List (Nat × Nat)) 3 = none :=
  ⟨(c9_closed_all_protocols_assertion Nat [(3, 0)] 5).1,
   (c9_closed_all_protocols_assertion Nat [(3, 0)] 3).2 [] (by decide)⟩

/-- Claim C2: feeding the locally computed sync status back into the chain
comparison yields `Equal`, for every history whose tail is consistent —
nonempty (as `get_tail` guarantees via `NonEmpty`) and ending at the header
returned by `get_tip`. -/
theorem c2_local_status_compares_equal (h : LedgerHistory)
    (hne : h.tail SYNC_HEADERS ≠ [])
    (hlast : (h.tail SYNC_HEADERS).getLast? = some h.tip) :
    compare_remote h (local_status h) = RemoteChainCmp.Equal := by
  rcases hrev : (h.tail SYNC_HEADERS).reverse with _ | ⟨a, t⟩
  · exact absurd (by simpa using congrArg List.reverse hrev) hne
  · have ha : a = h.tip := by
      have hh : (h.tail SYNC_HEADERS).reverse.head? = some a := by rw [hrev]; rfl
      rw [List.head?_reverse, hlast] at hh
      exact (Option.some_inj.mp hh).symm
    subst ha
    have hLastD : (h.tail SYNC_HEADERS).getLastD ⟨BlockId.ORIGIN, 0⟩ = h.tip := by
      simp [List.getLastD_eq_getLast?, hlast]
    unfold local_status compare_remote
    simp only [hrev, hLastD, List.map_cons]
    simp [List.find?_cons, Nat.sub_self]

/-- Witness for C2 at a concrete two-header history. -/
theorem c2_witness :
    compare_remote sampleHistory (local_status sampleHistory) = RemoteChainCmp.Equal :=
  c2_local_status_compares_equal sampleHistory (by decide) (by decide)

/-- Claim C3: with a nonempty remote tail, whenever
`delta = peer_height − local_tip.slot` (saturating `Nat` subtraction)
exceeds the tail length the comparison is `Longer(None)` — regardless of
any shared block inside the tail — and an empty remote tail yields
`Shorter(ORIGIN)`. -/
theorem c3_far_ahead_and_empty_tail (h : LedgerHistory) (ps : SyncStatus) :
    (ps.last_blocks ≠ [] →
      ps.last_blocks.length < ps.height - h.tip.slot →
      compare_remote h ps = RemoteChainCmp.Longer none) ∧
    (ps.last_blocks = [] →
      compare_remote h ps = RemoteChainCmp.Shorter BlockId.ORIGIN) := by
  constructor
  · intro hne hd
    unfold compare_remote
    rw [if_neg (by simpa [List.isEmpty_iff] using hne), if_pos hd]
  · intro he
    unfold compare_remote
    rw [if_pos (by simp [he])]

/-- Witness for C3: a remote status far ahead of the local tip — whose tail
even contains the local tip id — compares `Longer(None)`, and an empty
remote tail compares `Shorter(ORIGIN)`. -/
theorem c3_witness :
    compare_remote sampleHistory ⟨100, [⟨3⟩]⟩ = RemoteChainCmp.Longer none ∧
    compare_remote sampleHistory ⟨0, []⟩ = RemoteChainCmp.Shorter BlockId.ORIGIN :=
  ⟨(c3_far_ahead_and_empty_tail sampleHistory ⟨100, [⟨3⟩]⟩).1 (by decide) (by decide),
   (c3_far_ahead_and_empty_tail sampleHistory ⟨0, []⟩).2 (by decide)⟩

/-- Counterexample to claim C4 as stated: with `min_reputation = 1`, an
inbound budget of 1 and an unknown peer, the code emits `Accept` although
the peer's reputation (the initial 0 it is registered with) is below the
configured minimum — the unknown-peer path never consults reputation. -/
theorem c4_counterexample :
    (on_incoming_connection 1 { peers := [], max_inbound := 1 } 7 0).2 =
      PeerManagerOut.Accept 7 0 ∧
    (PeersState.peerInfo { peers := [], max_inbound := 1 } 7 = none) ∧
    ((on_incoming_connection 1 { peers := [], max_inbound := 1 } 7 0).1.peers.map
        (fun p => p.2.reputation)) = [0] ∧
    ¬ ((1 : Int) ≤ 0) := by decide

/-- Claim C4 amended: exactly one directive (`Accept` or `Reject`) is
emitted, and `Accept` is emitted iff the inbound budget has room and
either the peer is known, `NotConnected` and has reputation at least
`min_reputation`, or the peer is unknown (it is then registered with
initial reputation 0, which is not checked against the minimum); in
particular an already-`Connected` peer is always rejected. -/
theorem c4_admission_amended (min_reputation : Int) (st : PeersState)
    (pid conn_id : Nat) :
    ((on_incoming_connection min_reputation st pid conn_id).2 =
        PeerManagerOut.Accept pid conn_id ∨
      (on_incoming_connection min_reputation st pid conn_id).2 =
        PeerManagerOut.Reject pid conn_id) ∧
    ((on_incoming_connection min_reputation st pid conn_id).2 =
        PeerManagerOut.Accept pid conn_id ↔
      ((∃ pi, st.peerInfo pid = some pi ∧
          pi.state = ConnectionState.NotConnected ∧
          min_reputation ≤ pi.reputation) ∨
        st.peerInfo pid = none) ∧
      st.numInbound < st.max_inbound) := by
  rcases hpi : st.peerInfo pid with _ | pi
  · -- unknown peer: registered, then accepted iff the budget has room
    have hadd : st.tryAddPeer pid false =
        some { st with peers := (pid, PeerInfo.new false) :: st.peers } := by
      unfold PeersState.tryAddPeer
      rw [hpi]
    have hpi2 : PeersState.peerInfo
        { st with peers := (pid, PeerInfo.new false) :: st.peers } pid =
        some (PeerInfo.new false) := by
      simp [PeersState.peerInfo, hmLookup, List.find?_cons]
    have hinb : PeersState.numInbound
        { st with peers := (pid, PeerInfo.new false) :: st.peers } =
        st.numInbound := by
      simp [PeersState.numInbound, PeerInfo.new, List.filter_cons]
    by_cases hroom : st.numInbound < st.max_inbound
    · rcases hacc2 : PeersState.tryAcceptConnection
          { st with peers := (pid, PeerInfo.new false) :: st.peers } pid with _ | st3
      · exfalso
        unfold PeersState.tryAcceptConnection at hacc2
        rw [hpi2, hinb] at hacc2
        simp [hroom] at hacc2
      · unfold on_incoming_connection
        rw [hpi]
        simp [hadd, hacc2, hroom]
    · have hacc : PeersState.tryAcceptConnection
          { st with peers := (pid, PeerInfo.new false) :: st.peers } pid = none := by
        unfold PeersState.tryAcceptConnection
        rw [hpi2, hinb]
        simp [hroom]
      unfold on_incoming_connection
      rw [hpi]
      simp [hadd, hacc, hroom]
  · rcases hstate : pi.state with dir | _
    · -- already connected: always rejected
      unfold on_incoming_connection
      rw [hpi]
      simp [hstate]
    · -- known, not connected: reputation test then budget test
      by_cases hrep : min_reputation ≤ pi.reputation
      · by_cases hroom : st.numInbound < st.max_inbound
        · rcases hacc2 : st.tryAcceptConnection pid with _ | st2
          · exfalso
            unfold PeersState.tryAcceptConnection at hacc2
            rw [hpi] at hacc2
            simp [hroom] at hacc2
          · unfold on_incoming_connection
            rw [hpi]
            simp [hstate, hrep, hacc2, hroom]
        · have hacc : st.tryAcceptConnection pid = none := by
            unfold PeersState.tryAcceptConnection
            rw [hpi]
            simp [hroom]
          unfold on_incoming_connection
          rw [hpi]
          simp [hstate, hrep, hacc, hroom]
      · unfold on_incoming_connection
        rw [hpi]
        simp [hstate, hrep]

theorem hmLookup_eq_of_mem {α : Type} (m : List (Nat × α)) (k : Nat) (v : α)
    (hnd : (m.map Prod.fst).Nodup) (hmem : (k, v) ∈ m) : hmLookup m k = some v := by
  induction m with
  | nil => cases hmem
  | cons p ps ih =>
    rcases List.mem_cons.mp hmem with hh | ht
    · rw [← hh]
      simp [hmLookup, List.find?_cons]
    · by_cases hk : p.1 = k
      · exfalso
        have hk_in : k ∈ ps.map Prod.fst := List.mem_map.mpr ⟨(k, v), ht, rfl⟩
        rw [List.map_cons, List.nodup_cons] at hnd
        exact hnd.1 (hk ▸ hk_in)
      · have := ih (List.nodup_cons.mp (by simpa using hnd)).2 ht
        simpa [hmLookup, List.find?_cons, hk] using this

theorem foldl_pickBetter_spec (cs : List (Nat × PeerInfo)) :
    ∀ c, (cs.foldl pickBetter c) ∈ c :: cs ∧
      ∀ x ∈ c :: cs, x.2.reputation ≤ (cs.foldl pickBetter c).2.reputation := by
  induction cs with
  | nil => intro c; simp
  | cons b bs ih =>
    intro c
    simp only [List.foldl_cons]
    obtain ⟨hmem, hmax⟩ := ih (pickBetter c b)
    have hpk : pickBetter c b = c ∨ pickBetter c b = b := by
      unfold pickBetter; split <;> simp
    have hc_le : c.2.reputation ≤ (pickBetter c b).2.reputation := by
      unfold pickBetter; split
      · exact le_of_lt (by assumption)
      · exact le_refl _
    have hb_le : b.2.reputation ≤ (pickBetter c b).2.reputation := by
      unfold pickBetter; split
      · exact le_refl _
      · exact le_of_not_lt (by assumption)
    have hpk_le := hmax _ (List.mem_cons_self _ _)
    constructor
    · rcases List.mem_cons.mp hmem with hh | ht
      · rcases hpk with h | h <;> rw [hh, h] <;> simp
      · simp [List.mem_cons, ht]
    · intro x hx
      rcases List.mem_cons.mp hx with rfl | hx2
      · exact le_trans hc_le hpk_le
      · rcases List.mem_cons.mp hx2 with rfl | hx3
        · exact le_trans hb_le hpk_le
        · exact hmax x (List.mem_cons_of_mem _ hx3)

theorem peekBest_spec (peers : List (Nat × PeerInfo)) (pred : Nat → PeerInfo → Bool)
    (pid : Nat) (h : peekBest peers pred = some pid) :
    ∃ pi, (pid, pi) ∈ peers ∧ pred pid pi = true ∧
      ∀ q qi, (q, qi) ∈ peers → pred q qi = true →
        qi.reputation ≤ pi.reputation := by
  unfold peekBest at h
  rcases hf : peers.filter (fun p => pred p.1 p.2) with _ | ⟨c, cs⟩
  · rw [hf] at h; cases h
  · rw [hf] at h
    obtain ⟨hmem, hmax⟩ := foldl_pickBetter_spec cs c
    have hb := Option.some_inj.mp h
    have hbf : cs.foldl pickBetter c ∈ peers.filter (fun p => pred p.1 p.2) := by
      rw [hf]; exact hmem
    have hbp := List.mem_filter.mp hbf
    refine ⟨(cs.foldl pickBetter c).2, ?_, ?_, ?_⟩
    · rw [← hb, Prod.mk.eta]
      exact hbp.1
    · rw [← hb]
      simpa using hbp.2
    · intro q qi hq hpq
      have hqf : (q, qi) ∈ peers.filter (fun p => pred p.1 p.2) :=
        List.mem_filter.mpr ⟨hq, by simpa using hpq⟩
      rw [hf] at hqf
      exact hmax (q, qi) hqf

/-- Claim C5: a `StartProtocol(prot, pid)` directive is emitted by an
allocation step only when the policy condition holds (`Bounded(pct)`:
`enabled / connected < pct / 100` in integer division, as the code
computes; `Max`: `enabled < connected`; `Zero`: never), and only for a
peer that is Connected, advertises support for the protocol, has not yet
enabled it, and has maximal reputation among all such candidates. -/
theorem c5_alloc_only_when_below_target (st : PMState) (prot : Nat)
    (policy : ProtocolAllocationPolicy) (out : PeerManagerOut)
    (hnd : (st.peers.map Prod.fst).Nodup)
    (hout : allocStep st prot policy = some out) :
    ∃ pid pi enabled,
      out = PeerManagerOut.StartProtocol prot pid ∧
      st.enabledPeers prot = some enabled ∧
      (match policy with
        | ProtocolAllocationPolicy.Bounded pct =>
          enabled.length / st.numConnectedPeers < pct / 100
        | ProtocolAllocationPolicy.Max => enabled.length < st.numConnectedPeers
        | ProtocolAllocationPolicy.Zero => False) ∧
      hmLookup st.peers pid = some pi ∧
      (∃ d, pi.state = ConnectionState.Connected d) ∧
      (pi.supports prot).getD false = true ∧
      enabled.contains pid = false ∧
      (∀ q qi, (q, qi) ∈ st.peers → enabled.contains q = false →
        (qi.supports prot).getD false = true →
        qi.reputation ≤ pi.reputation) := by
  unfold allocStep at hout
  rcases hen : st.enabledPeers prot with _ | enabled
  · rw [hen] at hout; cases hout
  · rw [hen] at hout
    simp only at hout
    split at hout
    case isFalse => cases hout
    case isTrue hcond =>
      rcases hpk : peekBest st.peers
          (fun pid pi => !(enabled.contains pid) && (pi.supports prot).getD false) with _ | cand
      · rw [hpk] at hout; cases hout
      · rw [hpk] at hout
        obtain ⟨pi0, hmem0, hpred0, hmax0⟩ := peekBest_spec _ _ _ hpk
        have hlk : hmLookup st.peers cand = some pi0 :=
          hmLookup_eq_of_mem st.peers cand pi0 hnd hmem0
        simp only [hlk] at hout
        rcases hstate : pi0.state with dir | _
        · simp only [hstate] at hout
          have hout2 : out = PeerManagerOut.StartProtocol prot cand :=
            (Option.some_inj.mp hout).symm
          have hps := Bool.and_eq_true_iff.mp hpred0
          refine ⟨cand, pi0, enabled, hout2, rfl, ?_, hlk, ⟨dir, hstate⟩, hps.2, ?_, ?_⟩
          · cases policy with
            | Bounded pct => simpa using hcond
            | Max => simpa using hcond
            | Zero => simp at hcond
          · simpa using hps.1
          · intro q qi hq hqe hqs
            refine hmax0 q qi hq ?_
            simp only [Bool.and_eq_true, Bool.not_eq_true']
            exact ⟨hqe, hqs⟩
        · simp only [hstate] at hout
          exact Option.noConfusion hout

/-- Witness for C5: on the sample state the allocation step for protocol 9
under the `Max` policy starts the protocol with the best-reputation
connected supporter, peer 1. -/
theorem c5_witness :
    ∃ pid pi, hmLookup samplePMState.peers pid = some pi ∧
      (pi.supports 9).getD false = true ∧
      (∃ d, pi.state = ConnectionState.Connected d) := by
  obtain ⟨pid, pi, enabled, _, _, _, hlk, hconn, hsup, _, _⟩ :=
    c5_alloc_only_when_below_target samplePMState 9 ProtocolAllocationPolicy.Max
      (PeerManagerOut.StartProtocol 9 1) (by decide) (by decide)
  exact ⟨pid, pi, hlk, hsup, hconn⟩

/-- Claim C6: `upgrade_outbound` fails with `UnsupportedProtocolVer(v)`
exactly when the negotiated version `v = tag.protocol_ver()` is not among
the supported versions; otherwise it writes the configured handshake (and
nothing else); when a handshake is configured it reads exactly the
`APPROVE_SIZE` marker bytes and fails with `InvalidApprove` exactly when
the bytes read differ from the marker; and every success carries the
negotiated tag. -/
theorem c6_upgrade_outbound_contract (self : ProtocolUpgradeOut)
    (tag : ProtocolTag) (input : List Nat) :
    (∀ v, (upgrade_outbound self tag input).2 =
        Except.error (ProtocolUpgradeErr.UnsupportedProtocolVer v) ↔
      (v = tag.protocol_ver ∧
        hmLookup self.supported_versions tag.protocol_ver = none)) ∧
    (∀ pspec, hmLookup self.supported_versions tag.protocol_ver = some pspec →
      (upgrade_outbound self tag input).1 =
        (pspec.handshake.map write_handshake).getD []) ∧
    (∀ pspec hs, hmLookup self.supported_versions tag.protocol_ver = some pspec →
      pspec.handshake = some hs → APPROVE_SIZE ≤ input.length →
      ((upgrade_outbound self tag input).2 =
          Except.error ProtocolUpgradeErr.InvalidApprove ↔
        input.take APPROVE_SIZE ≠ approveBytes)) ∧
    (∀ pspec hs u, hmLookup self.supported_versions tag.protocol_ver = some pspec →
      pspec.handshake = some hs →
      (upgrade_outbound self tag input).2 = Except.ok u →
      u.remaining = input.drop APPROVE_SIZE) ∧
    (∀ u, (upgrade_outbound self tag input).2 = Except.ok u →
      u.negotiated_tag = tag) := by
  refine ⟨?_, ?_, ?_, ?_, ?_⟩
  · intro v
    rcases hlk : hmLookup self.supported_versions tag.protocol_ver with _ | pspec
    · simp [upgrade_outbound, hlk, eq_comm]
    · rcases hhs : pspec.handshake with _ | hs
      · simp [upgrade_outbound, hlk, hhs]
      · by_cases hlen : input.length < APPROVE_SIZE
        · simp [upgrade_outbound, read_approve, hlk, hhs, hlen]
        · by_cases htake : input.take APPROVE_SIZE = approveBytes
          · simp [upgrade_outbound, read_approve, hlk, hhs, hlen, htake]
          · simp [upgrade_outbound, read_approve, hlk, hhs, hlen, htake]
  · intro pspec hlk
    rcases hhs : pspec.handshake with _ | hs
    · simp [upgrade_outbound, hlk, hhs]
    · by_cases hlen : input.length < APPROVE_SIZE
      · simp [upgrade_outbound, read_approve, hlk, hhs, hlen]
      · by_cases htake : input.take APPROVE_SIZE = approveBytes
        · simp [upgrade_outbound, read_approve, hlk, hhs, hlen, htake]
        · simp [upgrade_outbound, read_approve, hlk, hhs, hlen, htake]
  · intro pspec hs hlk hhs hlen
    have hlen2 : ¬ input.length < APPROVE_SIZE := Nat.not_lt.mpr hlen
    by_cases htake : input.take APPROVE_SIZE = approveBytes
    · simp [upgrade_outbound, read_approve, hlk, hhs, hlen2, htake]
    · simp [upgrade_outbound, read_approve, hlk, hhs, hlen2, htake]
  · intro pspec hs u hlk hhs hok
    by_cases hlen : input.length < APPROVE_SIZE
    · simp [upgrade_outbound, read_approve, hlk, hhs, hlen] at hok
    · by_cases htake : input.take APPROVE_SIZE = approveBytes
      · simp [upgrade_outbound, read_approve, hlk, hhs, hlen, htake] at hok
        rw [← hok]
      · simp [upgrade_outbound, read_approve, hlk, hhs, hlen, htake] at hok
  · intro u hok
    rcases hlk : hmLookup self.supported_versions tag.protocol_ver with _ | pspec
    · simp [upgrade_outbound, hlk] at hok
    · rcases hhs : pspec.handshake with _ | hs
      · simp [upgrade_outbound, hlk, hhs] at hok
        rw [← hok]
      · by_cases hlen : input.length < APPROVE_SIZE
        · simp [upgrade_outbound, read_approve, hlk, hhs, hlen] at hok
        · by_cases htake : input.take APPROVE_SIZE = approveBytes
          · simp [upgrade_outbound, read_approve, hlk, hhs, hlen, htake] at hok
            rw [← hok]
          · simp [upgrade_outbound, read_approve, hlk, hhs, hlen, htake] at hok

/-- Witness for C6 on the sample config: an unsupported version 2 is
refused; with version 1 the handshake `[7]` is written length-prefixed; a
correct marker is not refused. -/
theorem c6_witness :
    ((upgrade_outbound sampleUpgradeOut (ProtocolTag.new 0 2) []).2 =
      Except.error (ProtocolUpgradeErr.UnsupportedProtocolVer 2)) ∧
    (upgrade_outbound sampleUpgradeOut (ProtocolTag.new 0 1)
        (approveBytes ++ [9])).1 =
      ((some [7] : Option (List Nat)).map write_handshake).getD [] ∧
    ¬ ((upgrade_outbound sampleUpgradeOut (ProtocolTag.new 0 1)
        (approveBytes ++ [9])).2 =
      Except.error ProtocolUpgradeErr.InvalidApprove) := by
  refine ⟨?_, ?_, ?_⟩
  · exact ((c6_upgrade_outbound_contract sampleUpgradeOut (ProtocolTag.new 0 2) []).1 2).mpr
      ⟨rfl, by decide⟩
  · exact (c6_upgrade_outbound_contract sampleUpgradeOut (ProtocolTag.new 0 1)
      (approveBytes ++ [9])).2.1 ⟨100, some [7]⟩ (by decide)
  · intro hbad
    have := ((c6_upgrade_outbound_contract sampleUpgradeOut (ProtocolTag.new 0 1)
      (approveBytes ++ [9])).2.2.1 ⟨100, some [7]⟩ [7] (by decide) rfl (by decide)).mp hbad
    exact this (by decide)

theorem bytesCmp_eq_iff (a : List Nat) : ∀ b, bytesCmp a b = Ordering.eq ↔ a = b := by
  induction a with
  | nil => intro b; cases b <;> simp [bytesCmp]
  | cons x xs ih =>
    intro b
    cases b with
    | nil => simp [bytesCmp]
    | cons y ys =>
      simp only [bytesCmp]
      cases h : compare x y with
      | lt =>
        have hne : x ≠ y := Nat.ne_of_lt (Nat.compare_eq_lt.mp h)
        simp [hne]
      | eq =>
        have hxy : x = y := Nat.compare_eq_eq.mp h
        simp [hxy, ih ys]
      | gt =>
        have hne : x ≠ y := (Nat.ne_of_lt (Nat.compare_eq_gt.mp h)).symm
        simp [hne]

theorem bytesCmp_swap (a : List Nat) : ∀ b, (bytesCmp a b).swap = bytesCmp b a := by
  induction a with
  | nil => intro b; cases b <;> simp [bytesCmp, Ordering.swap]
  | cons x xs ih =>
    intro b
    cases b with
    | nil => simp [bytesCmp, Ordering.swap]
    | cons y ys =>
      simp only [bytesCmp]
      cases h : compare x y with
      | lt =>
        have h2 : compare y x = Ordering.gt := Nat.compare_eq_gt.mpr (Nat.compare_eq_lt.mp h)
        simp [h2, Ordering.swap]
      | eq =>
        have hxy : x = y := Nat.compare_eq_eq.mp h
        have h2 : compare y x = Ordering.eq := Nat.compare_eq_eq.mpr hxy.symm
        simp [h2, ih ys]
      | gt =>
        have h2 : compare y x = Ordering.lt := Nat.compare_eq_lt.mpr (Nat.compare_eq_gt.mp h)
        simp [h2, Ordering.swap]

theorem bytesCmp_lt_trans (a : List Nat) :
    ∀ b c, bytesCmp a b = Ordering.lt → bytesCmp b c = Ordering.lt →
      bytesCmp a c = Ordering.lt := by
  induction a with
  | nil =>
    intro b c hab hbc
    cases c with
    | nil =>
      cases b with
      | nil => cases hab
      | cons y ys => cases hbc
    | cons z zs => simp [bytesCmp]
  | cons x xs ih =>
    intro b c hab hbc
    cases b with
    | nil => cases hab
    | cons y ys =>
      cases c with
      | nil => cases hbc
      | cons z zs =>
        simp only [bytesCmp] at hab hbc ⊢
        cases hxy : compare x y with
        | gt => rw [hxy] at hab; cases hab
        | lt =>
          cases hyz : compare y z with
          | gt => rw [hyz] at hbc; cases hbc
          | lt =>
            have : compare x z = Ordering.lt :=
              Nat.compare_eq_lt.mpr
                (Nat.lt_trans (Nat.compare_eq_lt.mp hxy) (Nat.compare_eq_lt.mp hyz))
            simp [this]
          | eq =>
            have hyz2 : y = z := Nat.compare_eq_eq.mp hyz
            have : compare x z = Ordering.lt := by
              rw [← hyz2]; exact hxy
            simp [this]
        | eq =>
          have hxy2 : x = y := Nat.compare_eq_eq.mp hxy
          cases hyz : compare y z with
          | gt => rw [hyz] at hbc; cases hbc
          | lt =>
            have : compare x z = Ordering.lt := by
              rw [hxy2]; exact hyz
            simp [this]
          | eq =>
            have : compare x z = Ordering.eq := by
              rw [hxy2]; exact hyz
            rw [hxy] at hab
            rw [hyz] at hbc
            simp only [this]
            exact ih ys zs hab hbc

theorem digestLe_total_thm (a b : List Nat × Nat) : digestLe a b ∨ digestLe b a := by
  unfold digestLe
  cases h : bytesCmp a.1 b.1 with
  | lt => left; simp [h]
  | eq => left; simp [h]
  | gt =>
    right
    have := bytesCmp_swap a.1 b.1
    rw [h] at this
    rw [← this]
    simp [Ordering.swap]

theorem digestLe_trans_thm (a b c : List Nat × Nat)
    (hab : digestLe a b) (hbc : digestLe b c) : digestLe a c := by
  unfold digestLe at hab hbc ⊢
  cases h1 : bytesCmp a.1 b.1 with
  | gt => exact absurd h1 hab
  | eq =>
    rw [(bytesCmp_eq_iff a.1 b.1).mp h1]
    exact hbc
  | lt =>
    cases h2 : bytesCmp b.1 c.1 with
    | gt => exact absurd h2 hbc
    | eq =>
      rw [← (bytesCmp_eq_iff b.1 c.1).mp h2]
      simp [h1]
    | lt =>
      simp [bytesCmp_lt_trans a.1 b.1 c.1 h1 h2]

instance : IsTotal (List Nat × Nat) digestLe := ⟨digestLe_total_thm⟩

instance : IsTrans (List Nat × Nat) digestLe := ⟨digestLe_trans_thm⟩

theorem digestLe_key_antisymm (a b : List Nat × Nat)
    (h1 : digestLe a b) (h2 : digestLe b a) : a.1 = b.1 := by
  unfold digestLe at h1 h2
  cases h : bytesCmp a.1 b.1 with
  | eq => exact (bytesCmp_eq_iff a.1 b.1).mp h
  | gt => exact absurd h h1
  | lt =>
    exfalso
    apply h2
    have := bytesCmp_swap a.1 b.1
    rw [h] at this
    rw [← this]
    rfl

theorem collectDetails_ok_eq (l : List (AssetId × Nat)) :
    ∀ r, collectDetails l = Except.ok r →
      r = l.map (fun p => (p.1.digest, p.2)) := by
  induction l with
  | nil => intro r h; simpa [collectDetails] using h.symm
  | cons p rest ih =>
    intro r h
    obtain ⟨id, a⟩ := p
    simp only [collectDetails] at h
    rcases hd : digest32TryFrom id.digest with e | digest
    · rw [hd] at h; cases h
    · rw [hd] at h
      rcases hta : tokenAmountTryFrom a with e | amount
      · rw [hta] at h; cases h
      · rw [hta] at h
        rcases hcd : collectDetails rest with e | tl
        · rw [hcd] at h; cases h
        · rw [hcd] at h
          have hdig : digest = id.digest := by
            unfold digest32TryFrom at hd
            split at hd
            · exact (Except.ok.inj hd).symm
            · cases hd
          have hamt : amount = a := by
            unfold tokenAmountTryFrom at hta
            split at hta
            · exact (Except.ok.inj hta).symm
            · cases hta
          have hr : r = (digest, amount) :: tl := (Except.ok.inj h).symm
          rw [hr, hdig, hamt, ih tl hcd]
          simp

theorem collectDetails_error_cases (l : List (AssetId × Nat)) :
    ∀ e, collectDetails l = Except.error e →
      e = ErgoTermCellError.DigestN ∨ e = ErgoTermCellError.TokenAmount := by
  induction l with
  | nil => intro e h; cases h
  | cons p rest ih =>
    intro e h
    obtain ⟨id, a⟩ := p
    simp only [collectDetails] at h
    rcases hd : digest32TryFrom id.digest with e1 | digest
    · rw [hd] at h
      have he : e = e1 := (Except.error.inj h).symm
      unfold digest32TryFrom at hd
      split at hd
      · cases hd
      · left; rw [he]; exact (Except.error.inj hd).symm
    · rw [hd] at h
      rcases hta : tokenAmountTryFrom a with e1 | amount
      · rw [hta] at h
        have he : e = e1 := (Except.error.inj h).symm
        unfold tokenAmountTryFrom at hta
        split at hta
        · cases hta
        · right; rw [he]; exact (Except.error.inj hta).symm
      · rw [hta] at h
        rcases hcd : collectDetails rest with e1 | tl
        · rw [hcd] at h
          have he : e = e1 := (Except.error.inj h).symm
          rw [he]
          exact ih e1 hcd
        · rw [hcd] at h; cases h

theorem boxValueTryFrom_error_eq (n : Nat) (e : ErgoTermCellError)
    (h : boxValueTryFrom n = Except.error e) : e = ErgoTermCellError.BoxValue := by
  unfold boxValueTryFrom at h
  split at h
  · cases h
  · exact (Except.error.inj h).symm

theorem boxValueTryFrom_ok_eq (n m : Nat)
    (h : boxValueTryFrom n = Except.ok m) : m = n := by
  unfold boxValueTryFrom at h
  split at h
  · exact (Except.ok.inj h).symm
  · cases h

theorem p2pkFromPkBytes_error_eq (bs : List Nat) (e : ErgoTermCellError)
    (h : p2pkFromPkBytes bs = Except.error e) : e = ErgoTermCellError.SigmaParsing := by
  unfold p2pkFromPkBytes at h
  split at h
  · cases h
  · exact (Except.error.inj h).symm

theorem p2pkFromPkBytes_ok_eq (bs a : List Nat)
    (h : p2pkFromPkBytes bs = Except.ok a) : a = bs := by
  unfold p2pkFromPkBytes at h
  split at h
  · exact (Except.ok.inj h).symm
  · cases h

theorem sorted_perm_eq_of_nodup_keys (l1 : List (List Nat × Nat)) :
    ∀ l2, List.Perm l1 l2 → List.Sorted digestLe l1 → List.Sorted digestLe l2 →
      (l1.map Prod.fst).Nodup → l1 = l2 := by
  induction l1 with
  | nil =>
    intro l2 hp _ _ _
    exact (hp.symm.eq_nil).symm
  | cons a t1 ih =>
    intro l2 hp hs1 hs2 hnd
    cases l2 with
    | nil => cases hp.eq_nil
    | cons b t2 =>
      obtain ⟨ha1, hst1⟩ := List.sorted_cons.mp hs1
      obtain ⟨hb2, hst2⟩ := List.sorted_cons.mp hs2
      by_cases hab : a = b
      · subst hab
        have hpt : List.Perm t1 t2 := hp.cons_inv
        have hndt : (t1.map Prod.fst).Nodup := by
          rw [List.map_cons, List.nodup_cons] at hnd
          exact hnd.2
        rw [ih t2 hpt hst1 hst2 hndt]
      · exfalso
        have hbmem : b ∈ a :: t1 := hp.symm.mem_iff.mp (List.mem_cons_self b t2)
        have hamem : a ∈ b :: t2 := hp.mem_iff.mp (List.mem_cons_self a t1)
        have hbt1 : b ∈ t1 := by
          rcases List.mem_cons.mp hbmem with h | h
          · exact absurd h.symm hab
          · exact h
        have hle_ab : digestLe a b := ha1 b hbt1
        have hle_ba : digestLe b a := by
          rcases List.mem_cons.mp hamem with h | h
          · exact absurd h hab
          · exact hb2 a h
        have hkey : a.1 = b.1 := digestLe_key_antisymm a b hle_ab hle_ba
        rw [List.map_cons, List.nodup_cons] at hnd
        exact hnd.1 (hkey ▸ List.mem_map.mpr ⟨b, hbt1, rfl⟩)

theorem ergoTryFrom_ok_elim (c : TermCell) (cell : ErgoTermCell)
    (h : ergoTermCellTryFrom c = Except.ok cell) :
    c.dst.target = ERGO_CHAIN_ID ∧
    boxValueTryFrom c.value.native = Except.ok cell.ergs ∧
    p2pkFromPkBytes c.dst.address = Except.ok cell.address ∧
    ∃ details, collectDetails (flattenAssets c) = Except.ok details ∧
      cell.tokens = List.insertionSort digestLe details := by
  unfold ergoTermCellTryFrom at h
  split at h
  case isFalse => cases h
  case isTrue htgt =>
    rcases hbv : boxValueTryFrom c.value.native with e | ergs
    · rw [hbv] at h; cases h
    · rw [hbv] at h
      rcases hpk : p2pkFromPkBytes c.dst.address with e | address
      · rw [hpk] at h; cases h
      · rw [hpk] at h
        rcases hcd : collectDetails (flattenAssets c) with e | details
        · rw [hcd] at h; cases h
        · rw [hcd] at h
          have hcell : cell =
              { ergs := ergs, address := address,
                tokens := List.insertionSort digestLe details } :=
            (Except.ok.inj h).symm
          subst hcell
          exact ⟨htgt, rfl, rfl, details, rfl, rfl⟩

/-- Counterexample to claim C10 as stated: with two asset entries sharing
one token-id digest, the stable sort preserves their input order, so two
terminal cells equal up to asset ordering convert successfully to cells
with different byte encodings — the encoding is not deterministic
"regardless of the ordering of assets in the input". -/
theorem c10_counterexample :
    ergoTermCellTryFrom sampleCellA =
      Except.ok ⟨1, sampleAddress, [(sampleDigest, 1), (sampleDigest, 2)]⟩ ∧
    ergoTermCellTryFrom sampleCellB =
      Except.ok ⟨1, sampleAddress, [(sampleDigest, 2), (sampleDigest, 1)]⟩ ∧
    List.Perm (flattenAssets sampleCellA) (flattenAssets sampleCellB) ∧
    sampleCellA.dst = sampleCellB.dst ∧
    sampleCellA.value.native = sampleCellB.value.native ∧
    ErgoTermCell.to_bytes ⟨1, sampleAddress, [(sampleDigest, 1), (sampleDigest, 2)]⟩ ≠
      ErgoTermCell.to_bytes ⟨1, sampleAddress, [(sampleDigest, 2), (sampleDigest, 1)]⟩ :=
  ⟨rfl, rfl, by decide, rfl, rfl, by decide⟩

/-- Claim C10 amended: the conversion fails with `WrongChainId` iff the
destination chain is not `ERGO_CHAIN_ID`; on success the token list is
sorted in ascending order of token-id digest; consequently the conversion
(and hence the byte encoding) is independent of the ordering of assets in
the input whenever no two asset entries share a token-id digest. -/
theorem c10_try_from_term_cell (c : TermCell) :
    (ergoTermCellTryFrom c = Except.error ErgoTermCellError.WrongChainId ↔
      c.dst.target ≠ ERGO_CHAIN_ID) ∧
    (∀ cell, ergoTermCellTryFrom c = Except.ok cell →
      List.Sorted digestLe cell.tokens) ∧
    (∀ c2 cell cell2, ergoTermCellTryFrom c = Except.ok cell →
      ergoTermCellTryFrom c2 = Except.ok cell2 →
      c.dst = c2.dst → c.value.native = c2.value.native →
      List.Perm (flattenAssets c) (flattenAssets c2) →
      ((flattenAssets c).map (fun p => p.1.digest)).Nodup →
      cell = cell2) := by
  refine ⟨?_, ?_, ?_⟩
  · by_cases htgt : c.dst.target = ERGO_CHAIN_ID
    · simp only [htgt, ne_eq, not_true_eq_false, iff_false]
      intro h
      unfold ergoTermCellTryFrom at h
      rw [if_pos htgt] at h
      rcases hbv : boxValueTryFrom c.value.native with e | ergs
      · simp only [hbv] at h
        have he := Except.error.inj h
        rw [boxValueTryFrom_error_eq c.value.native e hbv] at he
        cases he
      · simp only [hbv] at h
        rcases hpk : p2pkFromPkBytes c.dst.address with e | address
        · simp only [hpk] at h
          have he := Except.error.inj h
          rw [p2pkFromPkBytes_error_eq c.dst.address e hpk] at he
          cases he
        · simp only [hpk] at h
          rcases hcd : collectDetails (flattenAssets c) with e | details
          · simp only [hcd] at h
            have he := Except.error.inj h
            rcases collectDetails_error_cases (flattenAssets c) e hcd with h2 | h2 <;>
              rw [h2] at he <;> cases he
          · simp only [hcd] at h
            cases h
    · unfold ergoTermCellTryFrom
      rw [if_neg htgt]
      simp [htgt]
  · intro cell h
    obtain ⟨_, _, _, d, _, htk⟩ := ergoTryFrom_ok_elim c cell h
    rw [htk]
    exact List.sorted_insertionSort digestLe d
  · intro c2 cell cell2 h1 h2 hdst hnat hperm hnd
    obtain ⟨ht1, hbv1, hpk1, d1, hcd1, htk1⟩ := ergoTryFrom_ok_elim c cell h1
    obtain ⟨ht2, hbv2, hpk2, d2, hcd2, htk2⟩ := ergoTryFrom_ok_elim c2 cell2 h2
    have he1 : cell.ergs = c.value.native := boxValueTryFrom_ok_eq _ _ hbv1
    have he2 : cell2.ergs = c2.value.native := boxValueTryFrom_ok_eq _ _ hbv2
    have ha1 : cell.address = c.dst.address := p2pkFromPkBytes_ok_eq _ _ hpk1
    have ha2 : cell2.address = c2.dst.address := p2pkFromPkBytes_ok_eq _ _ hpk2
    have hd1 : d1 = (flattenAssets c).map (fun p => (p.1.digest, p.2)) :=
      collectDetails_ok_eq _ _ hcd1
    have hd2 : d2 = (flattenAssets c2).map (fun p => (p.1.digest, p.2)) :=
      collectDetails_ok_eq _ _ hcd2
    have hpermd : List.Perm d1 d2 := by
      rw [hd1, hd2]
      exact hperm.map _
    have hps1 := List.perm_insertionSort digestLe d1
    have hps2 := List.perm_insertionSort digestLe d2
    have hperm_s : List.Perm (List.insertionSort digestLe d1)
        (List.insertionSort digestLe d2) :=
      hps1.trans (hpermd.trans hps2.symm)
    have hndkeys : ((List.insertionSort digestLe d1).map Prod.fst).Nodup := by
      have hnd1 : (d1.map Prod.fst).Nodup := by
        rw [hd1, List.map_map]
        exact hnd
      exact ((hps1.map Prod.fst).symm).nodup hnd1
    have htok : cell.tokens = cell2.tokens := by
      rw [htk1, htk2]
      exact sorted_perm_eq_of_nodup_keys _ _ hperm_s
        (List.sorted_insertionSort digestLe d1)
        (List.sorted_insertionSort digestLe d2) hndkeys
    obtain ⟨ce1, ca1, ct1⟩ := cell
    obtain ⟨ce2, ca2, ct2⟩ := cell2
    dsimp only at he1 he2 ha1 ha2 htok
    simp only [ErgoTermCell.mk.injEq]
    refine ⟨?_, ?_, htok⟩
    · rw [he1, he2, hnat]
    · rw [ha1, ha2, hdst]

/-- Witness for C10: on the distinct-digest sample cells the conversion
yields a digest-sorted token list, and the asset-swapped variant converts
to the identical cell. -/
theorem c10_witness :
    List.Sorted digestLe
      (⟨1, sampleAddress, [(sampleDigest, 2), (sampleDigest2, 1)]⟩ : ErgoTermCell).tokens ∧
    (⟨1, sampleAddress, [(sampleDigest, 2), (sampleDigest2, 1)]⟩ : ErgoTermCell) =
      ⟨1, sampleAddress, [(sampleDigest, 2), (sampleDigest2, 1)]⟩ := by
  refine ⟨?_, ?_⟩
  · exact (c10_try_from_term_cell sampleCellC).2.1 _ rfl
  · exact (c10_try_from_term_cell sampleCellC).2.2 sampleCellD _ _ rfl rfl rfl rfl
      (by decide) (by decide)

end Spectrum
